import Mathlib

/-!
Verification of the retrieval-augmented-generation core of this repository:
the chunker (`DocumentIndexer.split_text_into_chunks`), the indexer
(`DocumentIndexer.index_document`, `DocumentIndexer.search_documents`) and the
conversation manager (`RAGChatbot.generate_response`, `RAGChatbot.set_system_prompt`).

The Python code is shallowly embedded: the tiktoken tokenizer, the OpenAI
embedding/completion providers and the ChromaDB store are external capabilities
and appear as function parameters; exceptions raised by a provider are modelled
with `Option`/`Except`; the side effects of a call (store writes, embedding
calls, mutation of the caller's metadata dict) are returned explicitly in a
result structure.
-/

/-! ## Python string helpers -/

/-- Model of Python's `l[-k:]` slice: for `k = 0` it is the whole list
(`l[-0:] = l[0:]`), otherwise the last `min k (l.length)` elements. -/
def lastN (n : Nat) (l : List α) : List α := l.drop (l.length - n)

/-- Python `l[-k:]`, including the `k = 0` quirk where the slice is the whole list. -/
def pySliceLast (l : List α) (k : Nat) : List α := if k = 0 then l else lastN k l

/-- Model of Python's `sep.join(parts)`. -/
def joinSep (sep : String) : List String → String
  | [] => ""
  | [w] => w
  | w :: x :: ws => w ++ sep ++ joinSep sep (x :: ws)

/-- `" ".join(parts)` as used in `split_text_into_chunks`. -/
def joinSpace : List String → String := joinSep " "

/-- `"\n".join(parts)` as used in `generate_response`. -/
def joinNL : List String → String := joinSep "\n"

/-- Accumulator pass of Python's `str.split()`: scan the characters, collecting
the current word reversed in `acc`, emitting a word at each whitespace run. -/
def wordsAux : List Char → List Char → List (List Char)
  | [], acc => if acc = [] then [] else [acc.reverse]
  | c :: rest, acc =>
    if c.isWhitespace then
      if acc = [] then wordsAux rest [] else acc.reverse :: wordsAux rest []
    else wordsAux rest (c :: acc)

/-- The words of a character list: maximal runs of non-whitespace characters. -/
def wordsCL (l : List Char) : List (List Char) := wordsAux l []

/-- Model of Python's `text.split()` (split on whitespace, dropping empties). -/
def pyWords (s : String) : List String := (wordsCL s.data).map (fun w => String.mk w)

/-- Model of Python's `not s.strip()`: true iff `s` is empty or whitespace-only. -/
def pyStripIsEmpty (s : String) : Bool := s.data.all Char.isWhitespace

/-! ## Chunker: `DocumentIndexer.split_text_into_chunks`

The tokenizer (`self.count_tokens`, i.e. tiktoken `cl100k_base`) is the
parameter `tc`.  The running chunk is kept as its list of words; the Python
code joins a chunk with single spaces at the moment it is appended to
`chunks`, which is equivalent to joining every chunk at the end. -/

structure ChunkAcc where
  chunks : List (List String)
  cur : List String
  curTokens : Nat
deriving DecidableEq, Repr

/-- One iteration of the `for word in words` loop of `split_text_into_chunks`. -/
def chunkStep (tc : String → Nat) (maxTokens overlap : Nat) (st : ChunkAcc)
    (word : String) : ChunkAcc :=
  let wt := tc (word ++ " ")
  if st.curTokens + wt > maxTokens ∧ st.cur ≠ [] then
    let ow := if st.cur.length > overlap then pySliceLast st.cur overlap else st.cur
    let newCur := ow ++ [word]
    ⟨st.chunks ++ [st.cur], newCur, tc (joinSpace newCur)⟩
  else
    ⟨st.chunks, st.cur ++ [word], st.curTokens + wt⟩

/-- The chunk word-lists produced by `split_text_into_chunks` from a word list. -/
def splitWordsIntoChunks (tc : String → Nat) (maxTokens overlap : Nat)
    (ws : List String) : List (List String) :=
  let st := ws.foldl (chunkStep tc maxTokens overlap) ⟨[], [], 0⟩
  if st.cur ≠ [] then st.chunks ++ [st.cur] else st.chunks

/-- `DocumentIndexer.split_text_into_chunks(text, max_tokens, overlap)`. -/
def split_text_into_chunks (tc : String → Nat) (maxTokens overlap : Nat)
    (text : String) : List String :=
  (splitWordsIntoChunks tc maxTokens overlap (pyWords text)).map joinSpace

/-! ## Metadata dictionaries

Python dicts with string keys, as used for chunk metadata.  Values are the
strings and ints the code stores.  `dictSet` is Python's `d[k] = v` (replace
the existing binding or append a new one); `dictGet` is `d.get(k)`. -/

inductive MVal where
  | str : String → MVal
  | natv : Nat → MVal
deriving DecidableEq, Repr

abbrev Dict := List (String × MVal)

/-- Python `d[k] = v` on an association list with unique keys. -/
def dictSet : Dict → String → MVal → Dict
  | [], k, v => [(k, v)]
  | p :: rest, k, v => if p.1 = k then (k, v) :: rest else p :: dictSet rest k v

/-- Python `d.get(k)` (`none` for a missing key). -/
def dictGet : Dict → String → Option MVal
  | [], _ => none
  | p :: rest, k => if p.1 = k then some p.2 else dictGet rest k

/-! ## Indexer: `DocumentIndexer.index_document`

`embed` models `self.get_embedding` (`none` = the OpenAI call raised, which the
per-chunk `try/except` skips); `addOk` models whether `self.collection.add`
succeeds.  The result records the return value, every attempted batched store
write, every chunk sent to the embedding provider, and the state of the
caller's metadata dict after the call (`index_document` aliases it through
`base_metadata = metadata or {}` and then sets `base_metadata["filename"]`). -/

abbrev Vec := List Int

structure StoreBatch where
  documents : List String
  embeddings : List Vec
  metadatas : List Dict
  ids : List String
deriving DecidableEq, Repr

structure IndexResult where
  ret : Nat
  adds : List StoreBatch
  embedCalls : List String
  metaAfter : Option Dict
deriving DecidableEq, Repr

/-- The `for i, chunk in enumerate(chunks)` loop of `index_document`: build the
four parallel lists `documents`/`embeddings`/`metadatas`/`ids`, skipping any
chunk whose embedding call fails. -/
def buildLists (embed : String → Option Vec) (fname : String) (base : Dict)
    (total : Nat) : List (Nat × String) → StoreBatch
  | [] => ⟨[], [], [], []⟩
  | (i, c) :: rest =>
    let acc := buildLists embed fname base total rest
    match embed c with
    | some v =>
      ⟨c :: acc.documents, v :: acc.embeddings,
       dictSet (dictSet base "chunk_index" (.natv i)) "total_chunks" (.natv total)
         :: acc.metadatas,
       (fname ++ "_" ++ toString i) :: acc.ids⟩
    | none => acc

/-- `base_metadata = metadata or {}` followed by
`base_metadata["filename"] = filename`.  A non-empty caller dict is aliased
(and therefore mutated); `None` or an empty dict gives a fresh dict. -/
def indexBase (metadata : Option Dict) (filename : String) : Dict :=
  dictSet
    (match metadata with
     | some d => if d = [] then [] else d
     | none => [])
    "filename" (.str filename)

/-- The state of the caller's metadata object after `index_document` ran its
`base_metadata` lines: a non-empty dict was aliased by `base_metadata` and so
carries the new `"filename"` binding; `None` and `{}` are untouched. -/
def indexMetaAfter (metadata : Option Dict) (filename : String) : Option Dict :=
  match metadata with
  | some d => if d = [] then some d else some (indexBase metadata filename)
  | none => none

/-- `DocumentIndexer.index_document(content, filename, metadata)`.  Chunking
uses the call's defaults `max_tokens=512, overlap=50`. -/
def index_document (tc : String → Nat) (embed : String → Option Vec)
    (addOk : Bool) (content filename : String) (metadata : Option Dict) :
    IndexResult :=
  if pyStripIsEmpty content then ⟨0, [], [], metadata⟩
  else
    let chunks := split_text_into_chunks tc 512 50 content
    let batch := buildLists embed filename (indexBase metadata filename)
      chunks.length chunks.enum
    if batch.documents ≠ [] then
      ⟨if addOk then batch.documents.length else 0, [batch], chunks,
       indexMetaAfter metadata filename⟩
    else
      ⟨0, [], chunks, indexMetaAfter metadata filename⟩

/-! ## Indexer: `DocumentIndexer.search_documents`

`embed` models `self.get_embedding(query)` and `storeQ` models
`self.collection.query` (both may raise, modelled by `Except`).  The result
rows are built from the store's parallel lists; an out-of-range index inside
the loop is an exception caught by the surrounding `try/except`, which returns
`[]`.  The store's per-query inner lists (`results['documents'][0]` etc.) are
modelled directly. -/

structure SearchResult where
  content : String
  metadata : Dict
  distance : Option Int
deriving DecidableEq, Repr

structure QueryResult where
  documents : List String
  metadatas : List Dict
  distances : Option (List Int)
deriving DecidableEq, Repr

/-- One iteration of the result loop: `documents[0][i]`, `metadatas[0][i]` and
`distances[0][i] if 'distances' in results else None`. -/
def buildRow (qr : QueryResult) (i : Nat) : Option SearchResult :=
  match qr.documents.get? i, qr.metadatas.get? i with
  | some c, some md =>
    match qr.distances with
    | some ds =>
      match ds.get? i with
      | some dv => some ⟨c, md, some dv⟩
      | none => none
    | none => some ⟨c, md, none⟩
  | _, _ => none

/-- The `for i in range(len(results['documents'][0]))` loop; `none` models an
exception escaping the loop. -/
def buildRows (qr : QueryResult) : List Nat → Option (List SearchResult)
  | [] => some []
  | i :: rest =>
    match buildRow qr i, buildRows qr rest with
    | some r, some rs => some (r :: rs)
    | _, _ => none

/-- `DocumentIndexer.search_documents(query, n_results)`. -/
def search_documents (embed : String → Except String Vec)
    (storeQ : Vec → Nat → Except String QueryResult) (query : String)
    (nResults : Nat) : List SearchResult :=
  match embed query with
  | .error _ => []
  | .ok v =>
    match storeQ v nResults with
    | .error _ => []
    | .ok qr =>
      match buildRows qr (List.range qr.documents.length) with
      | some rs => rs
      | none => []

/-! ## Conversation manager: `RAGChatbot`

State of a `RAGChatbot` instance: the append-only `conversation_history` and
the `system_prompt` attribute written by `set_system_prompt` (absent until the
first call).  `search` models `self.indexer.search_documents` (which catches
its own errors), `complete` models the chat-completion call (`Except.error` =
the call raised) and `now` models `self._get_current_timestamp()`. -/

structure Turn where
  query : String
  response : String
  relevantDocs : List (Option MVal)
  timestamp : String
deriving DecidableEq, Repr

structure ChatState where
  history : List Turn
  systemPrompt : Option String
deriving DecidableEq, Repr

structure Msg where
  role : String
  content : String
deriving DecidableEq, Repr

/-- The hard-coded system message content of `generate_response`. -/
def systemInstruction : String :=
  "Eres un asistente útil que responde preguntas basándose en los documentos proporcionados. \n                    \nInstrucciones:\n1. Usa ÚNICAMENTE la información de los documentos proporcionados para responder\n2. Si la información no está en los documentos, di claramente que no tienes esa información\n3. Cita el nombre del documento cuando uses información específica de él\n4. Sé preciso y conciso en tus respuestas\n5. Si hay múltiples documentos relevantes, integra la información de manera coherente\n6. Si no hay documentos relevantes, indica que no puedes responder basándote en los documentos disponibles"

/-- Python's f-string rendering of a metadata value. -/
def fmtMVal : MVal → String
  | .str s => s
  | .natv n => toString n

/-- The three context lines contributed by one retrieved document. -/
def docContextLines (d : SearchResult) : List String :=
  ["Documento: " ++
     (match dictGet d.metadata "filename" with
      | some v => fmtMVal v
      | none => "Desconocido"),
   "Contenido: " ++ d.content,
   "---"]

/-- The context block: joined context lines, or the fixed marker when no
documents were retrieved. -/
def buildContext (docs : List SearchResult) : String :=
  let parts := (docs.map docContextLines).flatten
  if parts ≠ [] then joinNL parts else "No se encontraron documentos relevantes."

/-- One history exchange rendered as a user/assistant message pair. -/
def histPair (t : Turn) : List Msg := [⟨"user", t.query⟩, ⟨"assistant", t.response⟩]

/-- The `messages` list assembled by `generate_response`: the hard-coded system
message, the recent history window (`history[-max_history:] if history else []`),
then the final user message embedding the context block and the query. -/
def assembleMessages (docs : List SearchResult) (hist : List Turn)
    (query : String) (maxHistory : Nat) : List Msg :=
  let recent := if hist ≠ [] then pySliceLast hist maxHistory else []
  let finalUser :=
    "Contexto de documentos:\n" ++ buildContext docs ++ "\n\nPregunta: " ++ query
  ⟨"system", systemInstruction⟩ ::
    ((recent.map histPair).flatten ++ [⟨"user", finalUser⟩])

/-- `RAGChatbot.generate_response(query, max_history, n_results, ...)`:
retrieve, assemble the prompt, call the provider; on success append a turn, on
any exception return the error string and leave the state untouched. -/
def generate_response (search : String → Nat → List SearchResult)
    (complete : List Msg → Except String String) (now : String)
    (st : ChatState) (query : String) (maxHistory nResults : Nat) :
    String × ChatState :=
  let docs := search query nResults
  let messages := assembleMessages docs st.history query maxHistory
  match complete messages with
  | .ok answer =>
    (answer,
     ⟨st.history ++
        [⟨query, answer, docs.map (fun d => dictGet d.metadata "filename"), now⟩],
      st.systemPrompt⟩)
  | .error e => ("Lo siento, hubo un error al generar la respuesta: " ++ e, st)

/-- `RAGChatbot.set_system_prompt(new_prompt)`: writes the `system_prompt`
attribute (which no other method reads). -/
def set_system_prompt (st : ChatState) (p : String) : ChatState :=
  ⟨st.history, some p⟩

/-! ## Basic lemmas -/

theorem lastN_zero (l : List α) : lastN 0 l = [] := by
  simp [lastN]

theorem lastN_of_le {l : List α} {n : Nat} (h : l.length ≤ n) : lastN n l = l := by
  simp [lastN, Nat.sub_eq_zero_of_le h]

theorem length_lastN (n : Nat) (l : List α) : (lastN n l).length = min n l.length := by
  simp [lastN, List.length_drop]
  omega

theorem mem_of_mem_lastN {x : α} {n : Nat} {l : List α} (h : x ∈ lastN n l) : x ∈ l :=
  List.mem_of_mem_drop h

theorem joinSpace_append_single (l : List String) (w : String) (h : l ≠ []) :
    joinSpace (l ++ [w]) = joinSpace l ++ " " ++ w := by
  induction l with
  | nil => exact absurd rfl h
  | cons x rest ih =>
    cases rest with
    | nil => rfl
    | cons y rest' =>
      have : joinSpace (x :: ((y :: rest') ++ [w]))
          = x ++ " " ++ joinSpace ((y :: rest') ++ [w]) := rfl
      rw [List.cons_append, this, ih (by simp)]
      show x ++ " " ++ (joinSpace (y :: rest') ++ " " ++ w)
          = joinSpace (x :: y :: rest') ++ " " ++ w
      have hx : joinSpace (x :: y :: rest') = x ++ " " ++ joinSpace (y :: rest') := rfl
      rw [hx]
      simp [String.append_assoc]

theorem joinSpace_data_cons (w x : String) (ws : List String) :
    (joinSpace (w :: x :: ws)).data = w.data ++ ' ' :: (joinSpace (x :: ws)).data := by
  show ((w ++ " ") ++ joinSpace (x :: ws)).data = _
  rw [String.data_append, String.data_append]
  simp

/-! ## Lemmas about `pyWords` -/

theorem wordsAux_good : ∀ (l acc : List Char),
    (∀ c ∈ acc, c.isWhitespace = false) →
    ∀ w ∈ wordsAux l acc, w ≠ [] ∧ ∀ c ∈ w, c.isWhitespace = false := by
  intro l
  induction l with
  | nil =>
    intro acc hacc w hw
    by_cases h : acc = []
    · simp [wordsAux, h] at hw
    · simp [wordsAux, h] at hw
      subst hw
      refine ⟨by simpa using h, ?_⟩
      intro c hc
      exact hacc c (List.mem_reverse.mp hc)
  | cons c rest ih =>
    intro acc hacc w hw
    by_cases hws : c.isWhitespace
    · by_cases h : acc = []
      · simp [wordsAux, hws, h] at hw
        exact ih [] (by simp) w hw
      · simp [wordsAux, hws, h] at hw
        rcases hw with hw | hw
        · subst hw
          refine ⟨by simpa using h, ?_⟩
          intro d hd
          exact hacc d (List.mem_reverse.mp hd)
        · exact ih [] (by simp) w hw
    · simp [wordsAux, hws] at hw
      refine ih (c :: acc) ?_ w hw
      intro d hd
      rcases List.mem_cons.mp hd with h | h
      · subst h; simpa using hws
      · exact hacc d h

theorem pyWords_good (s : String) :
    ∀ w ∈ pyWords s, w.data ≠ [] ∧ ∀ c ∈ w.data, c.isWhitespace = false := by
  intro w hw
  rcases List.mem_map.mp hw with ⟨cl, hcl, hmk⟩
  have := wordsAux_good s.data [] (by simp) cl hcl
  subst hmk
  exact this

theorem wordsAux_word_sep : ∀ (cs : List Char) (t acc : List Char),
    (∀ c ∈ cs, c.isWhitespace = false) → (acc ≠ [] ∨ cs ≠ []) →
    wordsAux (cs ++ ' ' :: t) acc = (acc.reverse ++ cs) :: wordsAux t [] := by
  intro cs
  induction cs with
  | nil =>
    intro t acc _ hne
    have hacc : acc ≠ [] := by
      rcases hne with h | h
      · exact h
      · exact absurd rfl h
    simp [wordsAux, hacc]
  | cons c cs' ih =>
    intro t acc hcs _
    have hc : c.isWhitespace = false := hcs c (by simp)
    show wordsAux (c :: (cs' ++ ' ' :: t)) acc = _
    rw [wordsAux]
    simp only [hc, Bool.false_eq_true, if_false]
    rw [ih t (c :: acc) (fun d hd => hcs d (by simp [hd])) (Or.inl (by simp))]
    simp

theorem wordsAux_word_end : ∀ (cs acc : List Char),
    (∀ c ∈ cs, c.isWhitespace = false) → (acc ≠ [] ∨ cs ≠ []) →
    wordsAux cs acc = [acc.reverse ++ cs] := by
  intro cs
  induction cs with
  | nil =>
    intro acc _ hne
    have hacc : acc ≠ [] := by
      rcases hne with h | h
      · exact h
      · exact absurd rfl h
    simp [wordsAux, hacc]
  | cons c cs' ih =>
    intro acc hcs _
    have hc : c.isWhitespace = false := hcs c (by simp)
    rw [wordsAux]
    simp only [hc, Bool.false_eq_true, if_false]
    rw [ih (c :: acc) (fun d hd => hcs d (by simp [hd])) (Or.inl (by simp))]
    simp

theorem string_mk_data (s : String) : String.mk s.data = s := rfl

theorem pyWords_joinSpace : ∀ (ws : List String),
    (∀ w ∈ ws, w.data ≠ [] ∧ ∀ c ∈ w.data, c.isWhitespace = false) →
    pyWords (joinSpace ws) = ws := by
  intro ws
  induction ws with
  | nil => intro _; rfl
  | cons w rest ih =>
    intro h
    rcases h w (by simp) with ⟨hw, hwc⟩
    cases rest with
    | nil =>
      show pyWords w = [w]
      unfold pyWords wordsCL
      rw [show w.data = w.data ++ [] by simp,
        wordsAux_word_end (w.data ++ []) [] (by simpa using hwc) (Or.inr (by simpa using hw))]
      simp
    | cons x rest' =>
      unfold pyWords wordsCL
      rw [joinSpace_data_cons,
        wordsAux_word_sep w.data _ [] hwc (Or.inr hw)]
      simp only [List.reverse_nil, List.nil_append, List.map_cons, string_mk_data]
      have := ih (fun u hu => h u (by simp [hu]))
      unfold pyWords wordsCL at this
      rw [this]

/-! ## Dictionary lemmas -/

theorem dictGet_set_self : ∀ (d : Dict) (k : String) (v : MVal),
    dictGet (dictSet d k v) k = some v := by
  intro d k v
  induction d with
  | nil => simp [dictSet, dictGet]
  | cons p rest ih =>
    by_cases h : p.1 = k
    · simp [dictSet, dictGet, h]
    · simp [dictSet, dictGet, h, ih]

theorem dictGet_set_ne : ∀ (d : Dict) (k k' : String) (v : MVal), k' ≠ k →
    dictGet (dictSet d k v) k' = dictGet d k' := by
  intro d k k' v hne
  induction d with
  | nil => simp [dictSet, dictGet, Ne.symm hne]
  | cons p rest ih =>
    by_cases h : p.1 = k
    · simp [dictSet, dictGet, h, Ne.symm hne]
    · simp [dictSet, dictGet, h, ih]


/-! ## Chunker fold lemmas -/

theorem chunkStep_cur_ne (tc : String → Nat) (maxT ov : Nat) (st : ChunkAcc)
    (w : String) : (chunkStep tc maxT ov st w).cur ≠ [] := by
  unfold chunkStep
  by_cases h : st.curTokens + tc (w ++ " ") > maxT ∧ st.cur ≠ []
  · simp [h]
  · simp [h]

theorem chunkFold_cur_ne (tc : String → Nat) (maxT ov : Nat) :
    ∀ (ws : List String) (st : ChunkAcc), st.cur ≠ [] →
      (ws.foldl (chunkStep tc maxT ov) st).cur ≠ [] := by
  intro ws
  induction ws with
  | nil => intro st h; exact h
  | cons w rest ih =>
    intro st _
    exact ih (chunkStep tc maxT ov st w) (chunkStep_cur_ne tc maxT ov st w)

theorem splitWords_ne_nil (tc : String → Nat) (maxT ov : Nat) (ws : List String)
    (h : ws ≠ []) : splitWordsIntoChunks tc maxT ov ws ≠ [] := by
  unfold splitWordsIntoChunks
  cases ws with
  | nil => exact absurd rfl h
  | cons w rest =>
    have hcur : ((w :: rest).foldl (chunkStep tc maxT ov) ⟨[], [], 0⟩).cur ≠ [] := by
      rw [List.foldl_cons]
      exact chunkFold_cur_ne tc maxT ov rest _ (chunkStep_cur_ne tc maxT ov _ w)
    simp only [hcur, if_true, ne_eq]
    simp

theorem chunkStep_pos (tc : String → Nat) (maxT ov : Nat) (st : ChunkAcc)
    (w : String) (h : st.curTokens + tc (w ++ " ") > maxT ∧ st.cur ≠ []) :
    chunkStep tc maxT ov st w =
      ⟨st.chunks ++ [st.cur],
       (if st.cur.length > ov then pySliceLast st.cur ov else st.cur) ++ [w],
       tc (joinSpace
         ((if st.cur.length > ov then pySliceLast st.cur ov else st.cur) ++ [w]))⟩ := by
  simp only [chunkStep]
  rw [if_pos h]

theorem chunkStep_neg (tc : String → Nat) (maxT ov : Nat) (st : ChunkAcc)
    (w : String) (h : ¬(st.curTokens + tc (w ++ " ") > maxT ∧ st.cur ≠ [])) :
    chunkStep tc maxT ov st w =
      ⟨st.chunks, st.cur ++ [w], st.curTokens + tc (w ++ " ")⟩ := by
  simp only [chunkStep]
  rw [if_neg h]

theorem ow_subset (ov : Nat) (cur : List String) :
    ∀ x ∈ (if cur.length > ov then pySliceLast cur ov else cur), x ∈ cur := by
  intro x hx
  by_cases hlen : cur.length > ov
  · rw [if_pos hlen] at hx
    unfold pySliceLast at hx
    by_cases hov : ov = 0
    · rwa [if_pos hov] at hx
    · rw [if_neg hov] at hx
      exact mem_of_mem_lastN hx
  · rwa [if_neg hlen] at hx

theorem chunkStep_mem (tc : String → Nat) (maxT ov : Nat) (ws0 : List String)
    (st : ChunkAcc) (w : String) (hw : w ∈ ws0)
    (hchunks : ∀ l ∈ st.chunks, ∀ x ∈ l, x ∈ ws0)
    (hcur : ∀ x ∈ st.cur, x ∈ ws0) :
    (∀ l ∈ (chunkStep tc maxT ov st w).chunks, ∀ x ∈ l, x ∈ ws0) ∧
      (∀ x ∈ (chunkStep tc maxT ov st w).cur, x ∈ ws0) := by
  by_cases h : st.curTokens + tc (w ++ " ") > maxT ∧ st.cur ≠ []
  · rw [chunkStep_pos tc maxT ov st w h]
    constructor
    · intro l hl x hx
      rcases List.mem_append.mp hl with hl | hl
      · exact hchunks l hl x hx
      · rcases List.mem_singleton.mp hl with rfl
        exact hcur x hx
    · intro x hx
      rcases List.mem_append.mp hx with hx | hx
      · exact hcur x (ow_subset ov st.cur x hx)
      · rcases List.mem_singleton.mp hx with rfl
        exact hw
  · rw [chunkStep_neg tc maxT ov st w h]
    refine ⟨hchunks, ?_⟩
    intro x hx
    rcases List.mem_append.mp hx with hx | hx
    · exact hcur x hx
    · rcases List.mem_singleton.mp hx with rfl
      exact hw

theorem chunkFold_mem (tc : String → Nat) (maxT ov : Nat) (ws0 : List String) :
    ∀ (ws : List String) (st : ChunkAcc), (∀ w ∈ ws, w ∈ ws0) →
      (∀ l ∈ st.chunks, ∀ x ∈ l, x ∈ ws0) → (∀ x ∈ st.cur, x ∈ ws0) →
      (∀ l ∈ (ws.foldl (chunkStep tc maxT ov) st).chunks, ∀ x ∈ l, x ∈ ws0) ∧
        (∀ x ∈ (ws.foldl (chunkStep tc maxT ov) st).cur, x ∈ ws0) := by
  intro ws
  induction ws with
  | nil => intro st _ h1 h2; exact ⟨h1, h2⟩
  | cons w rest ih =>
    intro st hws h1 h2
    rw [List.foldl_cons]
    rcases chunkStep_mem tc maxT ov ws0 st w (hws w (by simp)) h1 h2 with ⟨h1', h2'⟩
    exact ih _ (fun u hu => hws u (by simp [hu])) h1' h2'

theorem splitWords_words_mem (tc : String → Nat) (maxT ov : Nat) (ws : List String) :
    ∀ l ∈ splitWordsIntoChunks tc maxT ov ws, ∀ x ∈ l, x ∈ ws := by
  intro l hl x hx
  unfold splitWordsIntoChunks at hl
  rcases chunkFold_mem tc maxT ov ws ws ⟨[], [], 0⟩ (fun _ h => h) (by simp) (by simp)
    with ⟨h1, h2⟩
  by_cases hcur : (ws.foldl (chunkStep tc maxT ov) ⟨[], [], 0⟩).cur ≠ []
  · rw [if_pos hcur] at hl
    rcases List.mem_append.mp hl with hl | hl
    · exact h1 l hl x hx
    · rcases List.mem_singleton.mp hl with rfl
      exact h2 x hx
  · rw [if_neg hcur] at hl
    exact h1 l hl x hx

theorem chunk_units (tc : String → Nat) (maxT ov : Nat) (text : String) :
    ∀ l ∈ splitWordsIntoChunks tc maxT ov (pyWords text),
      pyWords (joinSpace l) = l := by
  intro l hl
  refine pyWords_joinSpace l ?_
  intro w hw
  exact pyWords_good text w (splitWords_words_mem tc maxT ov (pyWords text) l hl w hw)

/-! ## Overlap-seeding lemmas (for the chunk chain) -/

theorem chain'_concat_of {α : Type} {R : α → α → Prop} {l : List α} {a b : α}
    (h1 : List.Chain' R (l ++ [a])) (h2 : R a b) :
    List.Chain' R ((l ++ [a]) ++ [b]) := by
  rw [List.chain'_append]
  refine ⟨h1, List.chain'_singleton _, ?_⟩
  intro x hx y hy
  rw [List.getLast?_concat] at hx
  simp at hx hy
  subst hx
  subst hy
  exact h2

theorem chain'_snoc_ext {α : Type} {R : α → α → Prop} {l : List α} {a a' : α}
    (h1 : List.Chain' R (l ++ [a])) (h2 : ∀ x, R x a → R x a') :
    List.Chain' R (l ++ [a']) := by
  rw [List.chain'_append] at h1 ⊢
  obtain ⟨ha, _, hc⟩ := h1
  refine ⟨ha, List.chain'_singleton _, ?_⟩
  intro x hx y hy
  simp at hy
  subst hy
  exact h2 x (hc x hx a (by simp))

theorem seed_prefix_ow (ov : Nat) (cur : List String) (w : String) :
    lastN (min ov cur.length) cur <+:
      ((if cur.length > ov then pySliceLast cur ov else cur) ++ [w]) := by
  by_cases hov : ov = 0
  · subst hov
    rw [Nat.zero_min, lastN_zero]
    exact ⟨_, rfl⟩
  · by_cases hlen : cur.length > ov
    · rw [if_pos hlen]
      unfold pySliceLast
      rw [if_neg hov]
      rw [show min ov cur.length = ov by omega]
      exact ⟨[w], rfl⟩
    · rw [if_neg hlen]
      rw [show min ov cur.length = cur.length by omega]
      rw [lastN_of_le (le_refl _)]
      exact ⟨[w], rfl⟩

theorem chunkFold_chain (tc : String → Nat) (maxT ov : Nat) :
    ∀ (ws : List String) (st : ChunkAcc),
      List.Chain' (fun a b : List String => lastN (min ov a.length) a <+: b)
        (st.chunks ++ [st.cur]) →
      (st.cur = [] → st.chunks = []) →
      List.Chain' (fun a b : List String => lastN (min ov a.length) a <+: b)
        ((ws.foldl (chunkStep tc maxT ov) st).chunks ++
          [(ws.foldl (chunkStep tc maxT ov) st).cur]) ∧
        ((ws.foldl (chunkStep tc maxT ov) st).cur = [] →
          (ws.foldl (chunkStep tc maxT ov) st).chunks = []) := by
  intro ws
  induction ws with
  | nil => intro st h1 h2; exact ⟨h1, h2⟩
  | cons w rest ih =>
    intro st h1 h2
    rw [List.foldl_cons]
    refine ih _ ?_ ?_
    · by_cases h : st.curTokens + tc (w ++ " ") > maxT ∧ st.cur ≠ []
      · rw [chunkStep_pos tc maxT ov st w h]
        exact chain'_concat_of h1 (seed_prefix_ow ov st.cur w)
      · rw [chunkStep_neg tc maxT ov st w h]
        by_cases hc : st.cur = []
        · show List.Chain' _ (st.chunks ++ [st.cur ++ [w]])
          rw [h2 hc, hc]
          simp
        · exact chain'_snoc_ext h1 (fun x hx => hx.trans ⟨[w], rfl⟩)
    · intro hc'
      exact absurd hc' (chunkStep_cur_ne tc maxT ov st w)

theorem splitWords_chain (tc : String → Nat) (maxT ov : Nat) (ws : List String) :
    List.Chain' (fun a b : List String => lastN (min ov a.length) a <+: b)
      (splitWordsIntoChunks tc maxT ov ws) := by
  unfold splitWordsIntoChunks
  rcases chunkFold_chain tc maxT ov ws ⟨[], [], 0⟩ (by simp) (fun _ => rfl)
    with ⟨h1, h2⟩
  by_cases hcur : (ws.foldl (chunkStep tc maxT ov) ⟨[], [], 0⟩).cur ≠ []
  · rw [if_pos hcur]
    exact h1
  · rw [if_neg hcur]
    push_neg at hcur
    rw [h2 hcur]
    exact List.chain'_nil

/-! ## Token-budget lemmas -/

theorem ow_length_le (ov : Nat) (hov : 1 ≤ ov) (cur : List String) :
    (if cur.length > ov then pySliceLast cur ov else cur).length ≤ ov := by
  by_cases hlen : cur.length > ov
  · rw [if_pos hlen]
    unfold pySliceLast
    rw [if_neg (by omega : ¬ ov = 0), length_lastN]
    omega
  · rw [if_neg hlen]
    omega

theorem stored_chunk_le (tc : String → Nat) (maxT ov : Nat) (ws0 : List String)
    (h0 : tc "" = 0)
    (H : ∀ l : List String, (∀ x ∈ l, x ∈ ws0) → l.length ≤ ov + 1 →
      tc (joinSpace l) ≤ maxT)
    (cur : List String) (t : Nat)
    (hA : tc (joinSpace cur) ≤ t) (hC : t ≤ maxT ∨ cur.length ≤ 1)
    (hE : ∀ x ∈ cur, x ∈ ws0) : tc (joinSpace cur) ≤ maxT := by
  rcases hC with hC | hC
  · exact le_trans hA hC
  · cases cur with
    | nil =>
      rw [show joinSpace [] = "" from rfl, h0]
      exact Nat.zero_le _
    | cons x rest =>
      cases rest with
      | nil => exact H [x] hE (by omega)
      | cons y rest' =>
        simp [List.length_cons] at hC

theorem chunkFold_budget (tc : String → Nat) (maxT ov : Nat) (ws0 : List String)
    (hov : 1 ≤ ov) (h0 : tc "" = 0)
    (hmono : ∀ w : String, tc w ≤ tc (w ++ " "))
    (hsub : ∀ a w : String, tc (a ++ " " ++ w) ≤ tc a + tc (w ++ " "))
    (H : ∀ l : List String, (∀ x ∈ l, x ∈ ws0) → l.length ≤ ov + 1 →
      tc (joinSpace l) ≤ maxT) :
    ∀ (ws : List String) (st : ChunkAcc), (∀ w ∈ ws, w ∈ ws0) →
      tc (joinSpace st.cur) ≤ st.curTokens →
      (st.cur = [] → st.curTokens = 0) →
      (st.curTokens ≤ maxT ∨ st.cur.length ≤ 1) →
      (∀ c ∈ st.chunks, tc (joinSpace c) ≤ maxT) →
      (∀ x ∈ st.cur, x ∈ ws0) →
      tc (joinSpace (ws.foldl (chunkStep tc maxT ov) st).cur) ≤
          (ws.foldl (chunkStep tc maxT ov) st).curTokens ∧
        ((ws.foldl (chunkStep tc maxT ov) st).cur = [] →
          (ws.foldl (chunkStep tc maxT ov) st).curTokens = 0) ∧
        ((ws.foldl (chunkStep tc maxT ov) st).curTokens ≤ maxT ∨
          (ws.foldl (chunkStep tc maxT ov) st).cur.length ≤ 1) ∧
        (∀ c ∈ (ws.foldl (chunkStep tc maxT ov) st).chunks,
          tc (joinSpace c) ≤ maxT) ∧
        (∀ x ∈ (ws.foldl (chunkStep tc maxT ov) st).cur, x ∈ ws0) := by
  intro ws
  induction ws with
  | nil => intro st _ a b c d e; exact ⟨a, b, c, d, e⟩
  | cons w rest ih =>
    intro st hws hA hB hC hD hE
    rw [List.foldl_cons]
    have hw : w ∈ ws0 := hws w (by simp)
    by_cases h : st.curTokens + tc (w ++ " ") > maxT ∧ st.cur ≠ []
    · rw [chunkStep_pos tc maxT ov st w h]
      refine ih _ (fun u hu => hws u (by simp [hu])) (le_refl _) ?_ ?_ ?_ ?_
      · intro hc
        exact absurd hc (by simp)
      · left
        refine H _ ?_ ?_
        · intro x hx
          rcases List.mem_append.mp hx with hx | hx
          · exact hE x (ow_subset ov st.cur x hx)
          · rcases List.mem_singleton.mp hx with rfl
            exact hw
        · have hle := ow_length_le ov hov st.cur
          rw [List.length_append]
          simp only [List.length_singleton]
          omega
      · intro c hc
        rcases List.mem_append.mp hc with hc | hc
        · exact hD c hc
        · rcases List.mem_singleton.mp hc with rfl
          exact stored_chunk_le tc maxT ov ws0 h0 H st.cur st.curTokens hA hC hE
      · intro x hx
        rcases List.mem_append.mp hx with hx | hx
        · exact hE x (ow_subset ov st.cur x hx)
        · rcases List.mem_singleton.mp hx with rfl
          exact hw
    · rw [chunkStep_neg tc maxT ov st w h]
      refine ih _ (fun u hu => hws u (by simp [hu])) ?_ ?_ ?_ hD ?_
      · by_cases hc : st.cur = []
        · rw [hc, hB hc]
          rw [show joinSpace ([] ++ [w]) = w from rfl, Nat.zero_add]
          exact hmono w
        · rw [joinSpace_append_single st.cur w hc]
          exact le_trans (hsub (joinSpace st.cur) w) (Nat.add_le_add_right hA _)
      · intro hc
        exact absurd hc (by simp)
      · by_cases hc : st.cur = []
        · right
          rw [hc]
          simp
        · left
          have hle : ¬ (st.curTokens + tc (w ++ " ") > maxT) := fun hgt => h ⟨hgt, hc⟩
          show st.curTokens + tc (w ++ " ") ≤ maxT
          omega
      · intro x hx
        rcases List.mem_append.mp hx with hx | hx
        · exact hE x hx
        · rcases List.mem_singleton.mp hx with rfl
          exact hw

/-! ## Indexer lemmas -/

theorem index_document_nonblank (tc : String → Nat) (embed : String → Option Vec)
    (addOk : Bool) (content fname : String) (md : Option Dict)
    (hc : pyStripIsEmpty content = false) :
    index_document tc embed addOk content fname md =
      if (buildLists embed fname (indexBase md fname)
            (split_text_into_chunks tc 512 50 content).length
            (split_text_into_chunks tc 512 50 content).enum).documents ≠ [] then
        ⟨if addOk then
            (buildLists embed fname (indexBase md fname)
              (split_text_into_chunks tc 512 50 content).length
              (split_text_into_chunks tc 512 50 content).enum).documents.length
          else 0,
         [buildLists embed fname (indexBase md fname)
            (split_text_into_chunks tc 512 50 content).length
            (split_text_into_chunks tc 512 50 content).enum],
         split_text_into_chunks tc 512 50 content,
         indexMetaAfter md fname⟩
      else
        ⟨0, [], split_text_into_chunks tc 512 50 content,
         indexMetaAfter md fname⟩ := by
  unfold index_document
  rw [if_neg (by simp [hc])]

theorem buildLists_eq (embed : String → Option Vec) (f : String) (base : Dict)
    (total : Nat) :
    ∀ l : List (Nat × String),
      (buildLists embed f base total l).documents
          = (l.filter (fun p => (embed p.2).isSome)).map Prod.snd ∧
        (buildLists embed f base total l).ids
          = (l.filter (fun p => (embed p.2).isSome)).map
              (fun p => f ++ "_" ++ toString p.1) ∧
        (buildLists embed f base total l).metadatas
          = (l.filter (fun p => (embed p.2).isSome)).map
              (fun p => dictSet (dictSet base "chunk_index" (.natv p.1))
                "total_chunks" (.natv total)) := by
  intro l
  induction l with
  | nil => exact ⟨rfl, rfl, rfl⟩
  | cons p rest ih =>
    obtain ⟨i, c⟩ := p
    rcases ih with ⟨h1, h2, h3⟩
    cases hev : embed c with
    | none => simp [buildLists, hev, List.filter_cons, h1, h2, h3]
    | some v => simp [buildLists, hev, List.filter_cons, h1, h2, h3]

theorem enumFrom_filter_len (p : String → Bool) :
    ∀ (l : List String) (n : Nat),
      ((List.enumFrom n l).filter (fun q => p q.2)).length
        = (l.filter p).length := by
  intro l
  induction l with
  | nil => intro n; rfl
  | cons a rest ih =>
    intro n
    by_cases h : p a
    · simp [List.enumFrom, List.filter_cons, h, ih]
    · simp [List.enumFrom, List.filter_cons, h, ih]

theorem length_filter_isSome_add (embed : String → Option Vec) :
    ∀ l : List String,
      (l.filter (fun c => (embed c).isSome)).length +
        (l.filter (fun c => (embed c).isNone)).length = l.length := by
  intro l
  induction l with
  | nil => rfl
  | cons a rest ih =>
    cases hev : embed a with
    | none =>
      simp only [List.filter_cons, hev, Option.isSome_none, Option.isNone_none,
        if_false, if_true, List.length_cons, Bool.false_eq_true]
      omega
    | some v =>
      simp only [List.filter_cons, hev, Option.isSome_some, Option.isNone_some,
        if_true, if_false, List.length_cons, Bool.false_eq_true]
      omega

theorem wordsAux_eq_nil : ∀ (l acc : List Char), wordsAux l acc = [] →
    acc = [] ∧ ∀ c ∈ l, c.isWhitespace = true := by
  intro l
  induction l with
  | nil =>
    intro acc h
    by_cases hacc : acc = []
    · exact ⟨hacc, by simp⟩
    · rw [wordsAux, if_neg hacc] at h
      exact absurd h (by simp)
  | cons c rest ih =>
    intro acc h
    by_cases hws : c.isWhitespace
    · by_cases hacc : acc = []
      · rw [wordsAux, if_pos hws, if_pos hacc] at h
        rcases ih [] h with ⟨_, hrest⟩
        refine ⟨hacc, ?_⟩
        intro d hd
        rcases List.mem_cons.mp hd with rfl | hd
        · exact hws
        · exact hrest d hd
      · rw [wordsAux, if_pos hws, if_neg hacc] at h
        exact absurd h (by simp)
    · rw [wordsAux, if_neg hws] at h
      rcases ih (c :: acc) h with ⟨hacc, _⟩
      exact absurd hacc (by simp)

theorem pyWords_ne_nil (s : String) (h : pyStripIsEmpty s = false) :
    pyWords s ≠ [] := by
  intro hn
  unfold pyWords wordsCL at hn
  rw [List.map_eq_nil_iff] at hn
  rcases wordsAux_eq_nil s.data [] hn with ⟨_, hall⟩
  unfold pyStripIsEmpty at h
  rw [List.all_eq_true.mpr hall] at h
  exact absurd h (by simp)

theorem split_text_ne_nil (tc : String → Nat) (maxT ov : Nat) (text : String)
    (h : pyStripIsEmpty text = false) :
    split_text_into_chunks tc maxT ov text ≠ [] := by
  unfold split_text_into_chunks
  intro hmap
  rw [List.map_eq_nil_iff] at hmap
  exact splitWords_ne_nil tc maxT ov (pyWords text) (pyWords_ne_nil text h) hmap

/-! ## Claim theorems -/

/-- C5: for every filename and metadata argument, `index_document` with blank
(empty or whitespace-only) content returns 0, makes no embedding-provider
call, performs no store write, and leaves the caller's metadata untouched. -/
theorem index_document_blank (tc : String → Nat) (embed : String → Option Vec)
    (addOk : Bool) (fname : String) (md : Option Dict) (content : String)
    (hb : pyStripIsEmpty content = true) :
    index_document tc embed addOk content fname md = ⟨0, [], [], md⟩ := by
  unfold index_document
  rw [if_pos hb]

/-- Witness for C5 at the whitespace-only content `"   "`. -/
theorem index_document_blank_witness :
    index_document (fun _ => 0) (fun _ => none) true "   " "doc.txt" none
      = ⟨0, [], [], none⟩ :=
  index_document_blank (fun _ => 0) (fun _ => none) true "doc.txt" none "   "
    (by decide)

/-- C9 (amended): for a non-empty caller metadata dict and non-blank content,
`index_document` mutates the caller's dict through the `base_metadata` alias:
after the call the dict equals the original with `"filename"` set to the
document's filename. -/
theorem metadata_mutation (tc : String → Nat) (embed : String → Option Vec)
    (addOk : Bool) (content fname : String) (d : Dict)
    (hc : pyStripIsEmpty content = false) (hd : d ≠ []) :
    (index_document tc embed addOk content fname (some d)).metaAfter
        = some (dictSet d "filename" (.str fname)) ∧
      dictGet (dictSet d "filename" (.str fname)) "filename"
        = some (.str fname) := by
  refine ⟨?_, dictGet_set_self d "filename" (.str fname)⟩
  rw [index_document_nonblank tc embed addOk content fname (some d) hc]
  by_cases hb : (buildLists embed fname (indexBase (some d) fname)
      (split_text_into_chunks tc 512 50 content).length
      (split_text_into_chunks tc 512 50 content).enum).documents ≠ []
  · rw [if_pos hb]
    show indexMetaAfter (some d) fname = _
    simp [indexMetaAfter, indexBase, hd]
  · rw [if_neg hb]
    show indexMetaAfter (some d) fname = _
    simp [indexMetaAfter, indexBase, hd]

/-- C9 counterexample: the claim quantifies over every non-None caller dict,
but `metadata or {}` replaces an empty (yet non-None) dict by a fresh one, so
the caller's empty dict is left completely unchanged (no `"filename"` key). -/
theorem metadata_mutation_cex :
    (index_document (fun _ => 300) (fun _ => some []) true "x y" "f"
        (some [])).metaAfter = some [] ∧
      dictGet [] "filename" = none := by
  constructor
  · decide
  · rfl

/-- Witness for C9 (amended) at a one-entry caller dict and two-word content. -/
theorem metadata_mutation_witness :
    (index_document (fun _ => 300) (fun _ => some []) true "x y" "f"
        (some [("k", MVal.str "v")])).metaAfter
        = some (dictSet [("k", MVal.str "v")] "filename" (MVal.str "f")) ∧
      dictGet (dictSet [("k", MVal.str "v")] "filename" (MVal.str "f")) "filename"
        = some (MVal.str "f") :=
  metadata_mutation (fun _ => 300) (fun _ => some []) true "x y" "f"
    [("k", MVal.str "v")] (by decide) (by decide)

/-- C3 (amended): for non-blank content, when every chunk embedding succeeds
(and the store accepts the write), `index_document` performs a single batched
write of exactly `k` records, `k` the number of chunks, with ids
`fname_0 .. fname_(k-1)` aligned with the chunk list, each metadata carrying
`chunk_index = i` and `total_chunks = k`, and returns `k`. -/
theorem index_roundtrip_ids (tc : String → Nat) (embed : String → Option Vec)
    (content fname : String) (md : Option Dict)
    (hc : pyStripIsEmpty content = false)
    (he : ∀ s, (embed s).isSome = true) :
    0 < (split_text_into_chunks tc 512 50 content).length ∧
      (index_document tc embed true content fname md).ret
        = (split_text_into_chunks tc 512 50 content).length ∧
      ∃ b, (index_document tc embed true content fname md).adds = [b] ∧
        b.ids = (List.range (split_text_into_chunks tc 512 50 content).length).map
            (fun i => fname ++ "_" ++ toString i) ∧
        b.documents = split_text_into_chunks tc 512 50 content ∧
        b.metadatas.length = (split_text_into_chunks tc 512 50 content).length ∧
        ∀ i (h : i < b.metadatas.length),
          dictGet b.metadatas[i] "chunk_index" = some (.natv i) ∧
            dictGet b.metadatas[i] "total_chunks"
              = some (.natv (split_text_into_chunks tc 512 50 content).length) := by
  have hne := split_text_ne_nil tc 512 50 content hc
  rcases buildLists_eq embed fname (indexBase md fname)
      (split_text_into_chunks tc 512 50 content).length
      (split_text_into_chunks tc 512 50 content).enum with ⟨hdocs, hids, hmds⟩
  have hfil : (split_text_into_chunks tc 512 50 content).enum.filter
        (fun p => (embed p.2).isSome)
      = (split_text_into_chunks tc 512 50 content).enum :=
    List.filter_eq_self.mpr (fun a _ => he a.2)
  rw [hfil, List.enum_map_snd] at hdocs
  rw [hfil] at hids hmds
  have hids' : (buildLists embed fname (indexBase md fname)
        (split_text_into_chunks tc 512 50 content).length
        (split_text_into_chunks tc 512 50 content).enum).ids
      = (List.range (split_text_into_chunks tc 512 50 content).length).map
          (fun i => fname ++ "_" ++ toString i) := by
    rw [hids,
      show (fun p : Nat × String => fname ++ "_" ++ toString p.1)
        = ((fun i => fname ++ "_" ++ toString i) ∘ Prod.fst) from rfl,
      ← List.map_map, List.enum_map_fst]
  have hmds' : (buildLists embed fname (indexBase md fname)
        (split_text_into_chunks tc 512 50 content).length
        (split_text_into_chunks tc 512 50 content).enum).metadatas
      = (List.range (split_text_into_chunks tc 512 50 content).length).map
          (fun i => dictSet (dictSet (indexBase md fname) "chunk_index" (.natv i))
            "total_chunks"
            (.natv (split_text_into_chunks tc 512 50 content).length)) := by
    rw [hmds,
      show (fun p : Nat × String =>
          dictSet (dictSet (indexBase md fname) "chunk_index" (.natv p.1))
            "total_chunks"
            (.natv (split_text_into_chunks tc 512 50 content).length))
        = ((fun i => dictSet (dictSet (indexBase md fname) "chunk_index" (.natv i))
            "total_chunks"
            (.natv (split_text_into_chunks tc 512 50 content).length)) ∘ Prod.fst)
        from rfl,
      ← List.map_map, List.enum_map_fst]
  rw [index_document_nonblank tc embed true content fname md hc,
    if_pos (by rw [hdocs]; exact hne)]
  refine ⟨List.length_pos.mpr hne, ?_,
    buildLists embed fname (indexBase md fname)
      (split_text_into_chunks tc 512 50 content).length
      (split_text_into_chunks tc 512 50 content).enum,
    rfl, hids', hdocs, ?_, ?_⟩
  · show (buildLists embed fname (indexBase md fname)
        (split_text_into_chunks tc 512 50 content).length
        (split_text_into_chunks tc 512 50 content).enum).documents.length = _
    rw [hdocs]
  · rw [hmds', List.length_map, List.length_range]
  · intro i h
    have hget : (buildLists embed fname (indexBase md fname)
          (split_text_into_chunks tc 512 50 content).length
          (split_text_into_chunks tc 512 50 content).enum).metadatas[i]
        = dictSet (dictSet (indexBase md fname) "chunk_index" (.natv i))
            "total_chunks"
            (.natv (split_text_into_chunks tc 512 50 content).length) := by
      simp only [hmds', List.getElem_map, List.getElem_range]
    rw [hget]
    constructor
    · rw [dictGet_set_ne _ _ _ _ (by decide), dictGet_set_self]
    · rw [dictGet_set_self]

/-- C3 counterexample: content splitting into two chunks whose first chunk's
embedding fails; `index_document` returns `k = 1 > 0` but the single write's
id list is `["f_1"]`, not `["f_0"]` as the claim requires. -/
theorem index_roundtrip_ids_cex :
    (index_document (fun _ => 300) (fun c => if c = "x" then none else some [])
        true "x y" "f" none).ret = 1 ∧
      (index_document (fun _ => 300) (fun c => if c = "x" then none else some [])
          true "x y" "f" none).adds.map (fun b => b.ids) = [["f_1"]] ∧
      ¬ (["f_1"] = ["f_0"]) := by
  refine ⟨?_, ?_, by decide⟩
  · decide
  · decide

/-- Witness for C3 (amended) at a two-chunk document with an always-succeeding
embedding provider. -/
theorem index_roundtrip_ids_witness :
    0 < (split_text_into_chunks (fun _ => 300) 512 50 "x y").length ∧
      (index_document (fun _ => 300) (fun _ => some [1]) true "x y" "f" none).ret
        = (split_text_into_chunks (fun _ => 300) 512 50 "x y").length ∧
      ∃ b, (index_document (fun _ => 300) (fun _ => some [1]) true "x y" "f"
          none).adds = [b] ∧
        b.ids = (List.range (split_text_into_chunks (fun _ => 300) 512 50
            "x y").length).map (fun i => "f" ++ "_" ++ toString i) ∧
        b.documents = split_text_into_chunks (fun _ => 300) 512 50 "x y" ∧
        b.metadatas.length
          = (split_text_into_chunks (fun _ => 300) 512 50 "x y").length ∧
        ∀ i (h : i < b.metadatas.length),
          dictGet b.metadatas[i] "chunk_index" = some (.natv i) ∧
            dictGet b.metadatas[i] "total_chunks"
              = some (.natv (split_text_into_chunks (fun _ => 300) 512 50
                  "x y").length) :=
  index_roundtrip_ids (fun _ => 300) (fun _ => some [1]) "x y" "f" none
    (by decide) (fun _ => rfl)

/-- C4: if the embedding call fails for exactly one of the `N` chunks of a
non-blank document, `index_document` returns `N - 1`, the attempted store
writes contain exactly `N - 1` records in total, and every written batch keeps
each id `fname_i` aligned with its own chunk text (both lists arise from the
same filtered enumeration); the failure is skipped, not propagated. -/
theorem index_partial_failure (tc : String → Nat) (embed : String → Option Vec)
    (content fname : String) (md : Option Dict)
    (hc : pyStripIsEmpty content = false)
    (hone : ((split_text_into_chunks tc 512 50 content).filter
        (fun c => (embed c).isNone)).length = 1) :
    (index_document tc embed true content fname md).ret
        = (split_text_into_chunks tc 512 50 content).length - 1 ∧
      (((index_document tc embed true content fname md).adds.map
          (fun b => b.ids.length)).sum
        = (split_text_into_chunks tc 512 50 content).length - 1) ∧
      ∀ b ∈ (index_document tc embed true content fname md).adds,
        b.ids = ((split_text_into_chunks tc 512 50 content).enum.filter
            (fun p => (embed p.2).isSome)).map
              (fun p => fname ++ "_" ++ toString p.1) ∧
          b.documents = ((split_text_into_chunks tc 512 50 content).enum.filter
            (fun p => (embed p.2).isSome)).map Prod.snd := by
  rcases buildLists_eq embed fname (indexBase md fname)
      (split_text_into_chunks tc 512 50 content).length
      (split_text_into_chunks tc 512 50 content).enum with ⟨hdocs, hids, hmds⟩
  have hflen : ((split_text_into_chunks tc 512 50 content).enum.filter
        (fun p => (embed p.2).isSome)).length
      = (split_text_into_chunks tc 512 50 content).length - 1 := by
    show (((List.enumFrom 0 (split_text_into_chunks tc 512 50 content)).filter
        (fun p => (embed p.2).isSome)).length) = _
    rw [enumFrom_filter_len (fun c => (embed c).isSome)
        (split_text_into_chunks tc 512 50 content) 0]
    have := length_filter_isSome_add embed (split_text_into_chunks tc 512 50 content)
    omega
  rw [index_document_nonblank tc embed true content fname md hc]
  by_cases hb : (buildLists embed fname (indexBase md fname)
      (split_text_into_chunks tc 512 50 content).length
      (split_text_into_chunks tc 512 50 content).enum).documents ≠ []
  · rw [if_pos hb]
    have hlen : (buildLists embed fname (indexBase md fname)
          (split_text_into_chunks tc 512 50 content).length
          (split_text_into_chunks tc 512 50 content).enum).documents.length
        = (split_text_into_chunks tc 512 50 content).length - 1 := by
      rw [hdocs, List.length_map]
      exact hflen
    refine ⟨hlen, ?_, ?_⟩
    · show (buildLists embed fname (indexBase md fname)
          (split_text_into_chunks tc 512 50 content).length
          (split_text_into_chunks tc 512 50 content).enum).ids.length + 0 = _
      rw [hids, List.length_map]
      omega
    · intro b hbm
      rcases List.mem_singleton.mp hbm with rfl
      exact ⟨hids, hdocs⟩
  · rw [if_neg hb]
    push_neg at hb
    have hlen0 : ((split_text_into_chunks tc 512 50 content).enum.filter
        (fun p => (embed p.2).isSome)).length = 0 := by
      have := congrArg List.length hdocs
      rw [hb] at this
      simp only [List.length_nil, List.length_map] at this
      omega
    refine ⟨?_, ?_, ?_⟩
    · show (0 : Nat) = (split_text_into_chunks tc 512 50 content).length - 1
      omega
    · show (([] : List StoreBatch).map (fun b => b.ids.length)).sum
          = (split_text_into_chunks tc 512 50 content).length - 1
      simp only [List.map_nil, List.sum_nil]
      omega
    · intro b hbm
      exact absurd hbm (by simp)

/-- Witness for C4: three chunks `["x", "x y", "x y z"]`, embedding failing
exactly on `"x y"`. -/
theorem index_partial_failure_witness :
    (index_document (fun _ => 300)
        (fun c => if c = "x y" then none else some []) true "x y z" "f"
        none).ret
        = (split_text_into_chunks (fun _ => 300) 512 50 "x y z").length - 1 ∧
      (((index_document (fun _ => 300)
          (fun c => if c = "x y" then none else some []) true "x y z" "f"
          none).adds.map (fun b => b.ids.length)).sum
        = (split_text_into_chunks (fun _ => 300) 512 50 "x y z").length - 1) ∧
      ∀ b ∈ (index_document (fun _ => 300)
          (fun c => if c = "x y" then none else some []) true "x y z" "f"
          none).adds,
        b.ids = ((split_text_into_chunks (fun _ => 300) 512 50 "x y z").enum.filter
            (fun p => (((fun c => if c = "x y" then none else some ([] : Vec))) p.2).isSome)).map
              (fun p => "f" ++ "_" ++ toString p.1) ∧
          b.documents = ((split_text_into_chunks (fun _ => 300) 512 50
              "x y z").enum.filter
            (fun p => (((fun c => if c = "x y" then none else some ([] : Vec))) p.2).isSome)).map Prod.snd :=
  index_partial_failure (fun _ => 300)
    (fun c => if c = "x y" then none else some []) "x y z" "f" none
    (by decide) (by decide)

/-- C1 (amended): the per-chunk token budget holds provided `overlap ≥ 1`, the
tokenizer is well behaved (`tc "" = 0`, a word costs at most its
space-terminated form, and joining is subadditive), and every list of at most
`overlap + 1` units drawn from the text's units fits the budget — the
hypothesis the overlap re-seed needs, since a freshly seeded chunk holds up to
`overlap + 1` units and is emitted unchecked.  Under these hypotheses every
produced chunk (single-unit ones included) has token count at most
`max_tokens`. -/
theorem chunk_budget (tc : String → Nat) (maxTokens overlap : Nat)
    (text : String) (hov : 1 ≤ overlap) (h0 : tc "" = 0)
    (hmono : ∀ w : String, tc w ≤ tc (w ++ " "))
    (hsub : ∀ a w : String, tc (a ++ " " ++ w) ≤ tc a + tc (w ++ " "))
    (H : ∀ l : List String, (∀ x ∈ l, x ∈ pyWords text) →
      l.length ≤ overlap + 1 → tc (joinSpace l) ≤ maxTokens) :
    ∀ c ∈ split_text_into_chunks tc maxTokens overlap text, tc c ≤ maxTokens := by
  intro c hcm
  unfold split_text_into_chunks at hcm
  rcases List.mem_map.mp hcm with ⟨l, hl, rfl⟩
  unfold splitWordsIntoChunks at hl
  rcases chunkFold_budget tc maxTokens overlap (pyWords text) hov h0 hmono hsub H
      (pyWords text) ⟨[], [], 0⟩ (fun _ h => h)
      (by show tc (joinSpace []) ≤ 0
          rw [show joinSpace [] = "" from rfl, h0])
      (fun _ => rfl) (Or.inl (Nat.zero_le _)) (by simp) (by simp)
    with ⟨hA, _, hC, hD, hE⟩
  by_cases hcur :
      ((pyWords text).foldl (chunkStep tc maxTokens overlap) ⟨[], [], 0⟩).cur ≠ []
  · rw [if_pos hcur] at hl
    rcases List.mem_append.mp hl with hl | hl
    · exact hD l hl
    · rcases List.mem_singleton.mp hl with rfl
      exact stored_chunk_le tc maxTokens overlap (pyWords text) h0 H _ _ hA hC hE
  · rw [if_neg hcur] at hl
    exact hD l hl

/-- C1 counterexample: with the unit-counting tokenizer, `max_tokens = 2` and
`overlap = 5`, the text `"a b c d e"` yields the chunk `"a b c"`, which has 3
units (so it is not a single oversized unit) and token count 3 > 2: the
overlap re-seed produces multi-unit chunks above the budget. -/
theorem chunk_budget_cex :
    "a b c" ∈ split_text_into_chunks (fun s => (pyWords s).length) 2 5
        "a b c d e" ∧
      2 ≤ (pyWords "a b c").length ∧
      ¬ ((pyWords "a b c").length ≤ 2) := by
  refine ⟨?_, by decide, by decide⟩
  decide

/-- Witness for C1 (amended) with the character-count tokenizer at
`max_tokens = 100`, `overlap = 1`, text `"a b"`, evaluated at the concrete
produced chunk `"a b"`. -/
theorem chunk_budget_witness :
    String.length "a b" ≤ 100 ∧
      "a b" ∈ split_text_into_chunks String.length 100 1 "a b" := by
  have hmem : "a b" ∈ split_text_into_chunks String.length 100 1 "a b" := by
    decide
  refine ⟨chunk_budget String.length 100 1 "a b" (by decide) (by decide)
    ?_ ?_ ?_ "a b" hmem, hmem⟩
  · intro w
    rw [String.length_append]
    have h1 : (" " : String).length = 1 := rfl
    omega
  · intro a w
    rw [String.length_append, String.length_append, String.length_append]
    have h1 : (" " : String).length = 1 := rfl
    omega
  · intro l hmem hlen
    have hw : pyWords "a b" = ["a", "b"] := by decide
    match l, hlen with
    | [], _ => decide
    | [x], _ =>
      have hx : x ∈ pyWords "a b" := hmem x (by simp)
      rw [hw] at hx
      rcases List.mem_cons.mp hx with rfl | hx
      · decide
      · rcases List.mem_singleton.mp hx with rfl
        decide
    | [x, y], _ =>
      have hx : x ∈ pyWords "a b" := hmem x (by simp)
      have hy : y ∈ pyWords "a b" := hmem y (by simp)
      rw [hw] at hx hy
      rcases List.mem_cons.mp hx with rfl | hx
      · rcases List.mem_cons.mp hy with rfl | hy
        · decide
        · rcases List.mem_singleton.mp hy with rfl
          decide
      · rcases List.mem_singleton.mp hx with rfl
        rcases List.mem_cons.mp hy with rfl | hy
        · decide
        · rcases List.mem_singleton.mp hy with rfl
          decide

/-- C2: for every text and parameters, each chunk `i+1` produced by
`split_text_into_chunks` begins with the last
`min overlap (number of units of chunk i)` whitespace-delimited units of chunk
`i`, in order (for `overlap = 0` that prefix is empty, so the property holds
there too even though the code seeds with the whole previous chunk). -/
theorem overlap_preservation (tc : String → Nat) (maxTokens overlap : Nat)
    (text : String) :
    List.Chain'
      (fun a b : String =>
        lastN (min overlap (pyWords a).length) (pyWords a) <+: pyWords b)
      (split_text_into_chunks tc maxTokens overlap text) := by
  unfold split_text_into_chunks
  rw [List.chain'_map]
  have hgood := chunk_units tc maxTokens overlap text
  have hchain := splitWords_chain tc maxTokens overlap (pyWords text)
  revert hgood hchain
  generalize splitWordsIntoChunks tc maxTokens overlap (pyWords text) = wc
  intro hgood hchain
  induction wc with
  | nil => exact List.chain'_nil
  | cons a rest ih =>
    cases rest with
    | nil => exact List.chain'_singleton a
    | cons b rest' =>
      rw [List.chain'_cons] at hchain ⊢
      obtain ⟨hab, htail⟩ := hchain
      refine ⟨?_, ih (fun l hl => hgood l (by simp [hl])) htail⟩
      rw [hgood a (by simp), hgood b (by simp)]
      exact hab

/-- C6: `generate_response` either fails — the provider call returned an error,
the answer is the error string carrying the reason, and the conversation state
(history included) is exactly the one before the call — or succeeds, in which
case the history grows by exactly the one turn whose `query` field is the
input query and whose `response` is the returned answer. -/
theorem generate_response_history (search : String → Nat → List SearchResult)
    (complete : List Msg → Except String String) (now : String)
    (st : ChatState) (query : String) (maxHistory nResults : Nat) :
    (∃ e, complete (assembleMessages (search query nResults) st.history query
          maxHistory) = .error e ∧
        (generate_response search complete now st query maxHistory nResults).1
          = "Lo siento, hubo un error al generar la respuesta: " ++ e ∧
        (generate_response search complete now st query maxHistory nResults).2
          = st) ∨
      (∃ t, (generate_response search complete now st query maxHistory
            nResults).2.history = st.history ++ [t] ∧
        t.query = query ∧
        t.response
          = (generate_response search complete now st query maxHistory
              nResults).1 ∧
        complete (assembleMessages (search query nResults) st.history query
            maxHistory)
          = .ok (generate_response search complete now st query maxHistory
              nResults).1) := by
  simp only [generate_response]
  cases hcx : complete (assembleMessages (search query nResults) st.history
      query maxHistory) with
  | error e => exact Or.inl ⟨e, rfl, rfl, rfl⟩
  | ok a =>
    exact Or.inr ⟨⟨query, a,
      (search query nResults).map (fun d => dictGet d.metadata "filename"),
      now⟩, rfl, rfl, rfl, rfl⟩

/-- C10: the answer and posterior history of `generate_response` are identical
whether or not `set_system_prompt` was called first — the `system_prompt`
attribute is written but never read, and the system message actually sent is
the hard-coded constant. -/
theorem system_prompt_unused (search : String → Nat → List SearchResult)
    (complete : List Msg → Except String String) (now : String)
    (st : ChatState) (p : String) (query : String) (maxHistory nResults : Nat) :
    (generate_response search complete now (set_system_prompt st p) query
          maxHistory nResults).1
        = (generate_response search complete now st query maxHistory
            nResults).1 ∧
      (generate_response search complete now (set_system_prompt st p) query
          maxHistory nResults).2.history
        = (generate_response search complete now st query maxHistory
            nResults).2.history ∧
      (assembleMessages (search query nResults) st.history query
          maxHistory).head?
        = some ⟨"system", systemInstruction⟩ := by
  refine ⟨?_, ?_, rfl⟩
  · simp only [generate_response, set_system_prompt]
    cases complete (assembleMessages (search query nResults) st.history query
      maxHistory) <;> rfl
  · simp only [generate_response, set_system_prompt]
    cases complete (assembleMessages (search query nResults) st.history query
      maxHistory) <;> rfl

/-- C7 (amended): for every positive `max_history`, the assembled prompt is
exactly the hard-coded system message, then the last
`min max_history (history length)` turns rendered oldest-first as
user/assistant pairs, then the final user message with the context block and
the new query; the window is a suffix of the history of length
`min max_history (history length)`, hence at most `max_history` prior turns. -/
theorem history_window (docs : List SearchResult) (hist : List Turn)
    (query : String) (maxHistory : Nat) (h : 1 ≤ maxHistory) :
    assembleMessages docs hist query maxHistory
        = ⟨"system", systemInstruction⟩ ::
          (((lastN (min maxHistory hist.length) hist).map histPair).flatten ++
            [⟨"user", "Contexto de documentos:\n" ++ buildContext docs ++
              "\n\nPregunta: " ++ query⟩]) ∧
      (lastN (min maxHistory hist.length) hist).length
        = min maxHistory hist.length ∧
      lastN (min maxHistory hist.length) hist <:+ hist := by
  refine ⟨?_, ?_, List.drop_suffix _ _⟩
  · have hrec : (if hist ≠ [] then pySliceLast hist maxHistory else [])
        = lastN (min maxHistory hist.length) hist := by
      by_cases hh : hist = []
      · subst hh
        simp [lastN]
      · rw [if_pos hh]
        unfold pySliceLast
        rw [if_neg (by omega : ¬ maxHistory = 0)]
        unfold lastN
        congr 1
        omega
    simp only [assembleMessages]
    rw [hrec]
  · rw [length_lastN]
    omega

/-- C7 counterexample: with `max_history = 0` and one prior turn, the slice
`history[-0:]` keeps the whole history, so the prompt has 4 messages — it
contains the prior turn's user message although the claim allows at most 0
prior turns (i.e. 2 messages). -/
theorem history_window_cex :
    (assembleMessages [] [⟨"q0", "r0", [], "t"⟩] "q" 0).length = 4 ∧
      Msg.mk "user" "q0" ∈ assembleMessages [] [⟨"q0", "r0", [], "t"⟩] "q" 0 ∧
      ¬ ((4 : Nat) = 2) := by
  refine ⟨by decide, by decide, by decide⟩

/-- Witness for C7 (amended) at `max_history = 1` and a one-turn history. -/
theorem history_window_witness :
    assembleMessages [] [⟨"q0", "r0", [], "t"⟩] "q" 1
        = ⟨"system", systemInstruction⟩ ::
          (((lastN (min 1 ([(⟨"q0", "r0", [], "t"⟩ : Turn)] : List Turn).length)
              ([(⟨"q0", "r0", [], "t"⟩ : Turn)] : List Turn)).map histPair).flatten ++
            [⟨"user", "Contexto de documentos:\n" ++ buildContext [] ++
              "\n\nPregunta: " ++ "q"⟩]) ∧
      (lastN (min 1 ([(⟨"q0", "r0", [], "t"⟩ : Turn)] : List Turn).length)
          ([(⟨"q0", "r0", [], "t"⟩ : Turn)] : List Turn)).length
        = min 1 ([(⟨"q0", "r0", [], "t"⟩ : Turn)] : List Turn).length ∧
      lastN (min 1 ([(⟨"q0", "r0", [], "t"⟩ : Turn)] : List Turn).length)
          ([(⟨"q0", "r0", [], "t"⟩ : Turn)] : List Turn)
        <:+ ([(⟨"q0", "r0", [], "t"⟩ : Turn)] : List Turn) :=
  history_window [] [⟨"q0", "r0", [], "t"⟩] "q" 1 (by decide)

theorem buildRows_length (qr : QueryResult) :
    ∀ (l : List Nat) (rs : List SearchResult),
      buildRows qr l = some rs → rs.length = l.length := by
  intro l
  induction l with
  | nil =>
    intro rs h
    simp only [buildRows, Option.some.injEq] at h
    rw [← h]
    rfl
  | cons i rest ih =>
    intro rs h
    unfold buildRows at h
    cases h1 : buildRow qr i with
    | none =>
      rw [h1] at h
      simp at h
    | some r =>
      cases h2 : buildRows qr rest with
      | none =>
        rw [h1, h2] at h
        simp at h
      | some rs' =>
        rw [h1, h2] at h
        simp only [Option.some.injEq] at h
        rw [← h]
        simp [ih rs' h2]

theorem search_documents_embed_err {embed : String → Except String Vec}
    {storeQ : Vec → Nat → Except String QueryResult} {query : String}
    {n : Nat} {e : String} (h : embed query = .error e) :
    search_documents embed storeQ query n = [] := by
  unfold search_documents
  rw [h]

theorem search_documents_store_err {embed : String → Except String Vec}
    {storeQ : Vec → Nat → Except String QueryResult} {query : String}
    {n : Nat} {v : Vec} {e : String} (h1 : embed query = .ok v)
    (h2 : storeQ v n = .error e) :
    search_documents embed storeQ query n = [] := by
  simp only [search_documents, h1, h2]

theorem search_documents_ok {embed : String → Except String Vec}
    {storeQ : Vec → Nat → Except String QueryResult} {query : String}
    {n : Nat} {v : Vec} {qr : QueryResult} (h1 : embed query = .ok v)
    (h2 : storeQ v n = .ok qr) :
    search_documents embed storeQ query n
      = (buildRows qr (List.range qr.documents.length)).getD [] := by
  simp only [search_documents, h1, h2]
  cases buildRows qr (List.range qr.documents.length) <;> rfl

/-- C8: `search_documents` is total in the model (it never raises); it returns
at most `n_results` rows whenever the store capability honours its `topK`
contract, and it returns `[]` when the query embedding fails, when the store
lookup fails, or when the collection is empty (store returns no documents). -/
theorem search_documents_props (embed : String → Except String Vec)
    (storeQ : Vec → Nat → Except String QueryResult) (query : String)
    (nResults : Nat)
    (hstore : ∀ v k qr, storeQ v k = .ok qr → qr.documents.length ≤ k) :
    (search_documents embed storeQ query nResults).length ≤ nResults ∧
      (∀ e, embed query = .error e →
        search_documents embed storeQ query nResults = []) ∧
      (∀ v e, embed query = .ok v → storeQ v nResults = .error e →
        search_documents embed storeQ query nResults = []) ∧
      (∀ v qr, embed query = .ok v → storeQ v nResults = .ok qr →
        qr.documents = [] →
        search_documents embed storeQ query nResults = []) := by
  refine ⟨?_, ?_, ?_, ?_⟩
  · cases hq : embed query with
    | error e =>
      rw [search_documents_embed_err hq]
      simp
    | ok v =>
      cases hs : storeQ v nResults with
      | error e2 =>
        rw [search_documents_store_err hq hs]
        simp
      | ok qr =>
        rw [search_documents_ok hq hs]
        cases hbr : buildRows qr (List.range qr.documents.length) with
        | none => simp
        | some rs =>
          show rs.length ≤ nResults
          have hn := buildRows_length qr (List.range qr.documents.length) rs hbr
          rw [List.length_range] at hn
          have h2 := hstore v nResults qr hs
          omega
  · intro e h
    exact search_documents_embed_err h
  · intro v e h1 h2
    exact search_documents_store_err h1 h2
  · intro v qr h1 h2 hdoc
    rw [search_documents_ok h1 h2, hdoc]
    rfl

/-- Witness for C8 with a trivially contract-honouring store over an empty
collection. -/
theorem search_documents_props_witness :
    (search_documents (fun _ => (Except.ok [] : Except String Vec))
        (fun _ _ => (Except.ok ⟨[], [], none⟩ : Except String QueryResult))
        "q" 5).length ≤ 5 ∧
      (∀ e, (fun _ => (Except.ok [] : Except String Vec)) "q"
          = Except.error e →
        search_documents (fun _ => (Except.ok [] : Except String Vec))
          (fun _ _ => (Except.ok ⟨[], [], none⟩ : Except String QueryResult))
          "q" 5 = []) ∧
      (∀ v e, (fun _ => (Except.ok [] : Except String Vec)) "q"
          = Except.ok v →
        (fun _ _ => (Except.ok ⟨[], [], none⟩ : Except String QueryResult)) v 5
          = Except.error e →
        search_documents (fun _ => (Except.ok [] : Except String Vec))
          (fun _ _ => (Except.ok ⟨[], [], none⟩ : Except String QueryResult))
          "q" 5 = []) ∧
      (∀ v qr, (fun _ => (Except.ok [] : Except String Vec)) "q"
          = Except.ok v →
        (fun _ _ => (Except.ok ⟨[], [], none⟩ : Except String QueryResult)) v 5
          = Except.ok qr →
        qr.documents = [] →
        search_documents (fun _ => (Except.ok [] : Except String Vec))
          (fun _ _ => (Except.ok ⟨[], [], none⟩ : Except String QueryResult))
          "q" 5 = []) :=
  search_documents_props (fun _ => (Except.ok [] : Except String Vec))
    (fun _ _ => (Except.ok ⟨[], [], none⟩ : Except String QueryResult)) "q" 5
    (fun v k qr h => by
      cases h
      simp)
